import Mathlib

/-!
Verification development for the SMOKE/ICE chain-aggregation firmware.

The definitions below are a shallow embedding of the relevant parts of the
firmware sources:

* src/unnamed/part_001 — the ICE sender (crc16_ccitt).
* src/unnamed/part_002 — the SMOKE receiver/bridge v2.2: CRC-checked TLV
  decoding (processDecodedMessage, parseAndMaybeRecord), the seen-fragment
  cache, fragment reassembly (the ESP-NOW receive callback) and
  forward_upstream.
* src/ice_ble_uart/ice_ble_uart.ino — SMOKE v3: the localBest table
  (pollUART), the chainBest merge and tail printing (esn_setup receive
  callback), startNewBatchIfRoom1 and esn_send_entries.
* src/smoke_chain_s3/smoke_chain_s3.ino — the AGG-line relay: the
  bestStr/bestRoom arrays (pumpICE, onRecv) and the flush/decay cycle
  (forwardAggOrPrint, FLUSH_PERIOD_MS).

Byte buffers are modelled as lists of naturals below 256; uint8_t/uint16_t
arithmetic is modelled on Nat with explicit reductions modulo 256 and 65536,
int8_t values are read into Int via int8.
-/

namespace SmokeChain

/-- Signed interpretation of a byte: the C cast (int8_t)b for 0 ≤ b < 256. -/
def int8 (b : Nat) : Int :=
  if b < 128 then (b : Int) else (b : Int) - 256

/-- Byte i of a buffer (out-of-range reads default to 0; all theorems keep
indices in range). -/
def byteAt (m : List Nat) (i : Nat) : Nat := m.getD i 0

/-- Little-endian 16-bit read at offset i, as in the decoders of
part_000/part_002: m[i] | (m[i+1] << 8). -/
def le16 (m : List Nat) (i : Nat) : Nat := byteAt m i ||| (byteAt m (i + 1) <<< 8)

/-- Little-endian 32-bit read at offset i. -/
def le32 (m : List Nat) (i : Nat) : Nat :=
  byteAt m i ||| (byteAt m (i + 1) <<< 8) ||| (byteAt m (i + 2) <<< 16) |||
    (byteAt m (i + 3) <<< 24)

/-- One shift step of crc16_ccitt (part_001 line 39): the crc is a uint16_t,
so the C assignment truncates modulo 2^16. -/
def crcShift1 (c : Nat) : Nat :=
  if c &&& 0x8000 ≠ 0 then ((c <<< 1) ^^^ 0x1021) % 65536 else (c <<< 1) % 65536

/-- One byte step of crc16_ccitt: crc ^= byte << 8, then eight shift steps. -/
def crcByteStep (c b : Nat) : Nat := crcShift1^[8] ((c ^^^ (b <<< 8)) % 65536)

/-- crc16_ccitt from part_001 lines 36-42 (identical in part_000 and
part_002): polynomial 0x1021, default initial value 0xFFFF. -/
def crc16_ccitt (d : List Nat) (crc : Nat := 0xFFFF) : Nat := d.foldl crcByteStep crc

/-- An entry of the seen-fragment cache (struct SeenKey, part_002 line 83). -/
structure SeenKey where
  origin : List Nat
  batch : Nat
  seq : Nat
  src_room : Nat
deriving DecidableEq

/-- Key of the bestRssi table (struct RoomDevKey, part_002 line 77). -/
structure RoomDevKey where
  room : Nat
  dev : Nat
deriving DecidableEq

/-- Mutable node state of part_002 touched by the decode pipeline: the
configuration globals, the binding maps, the strongest-signal table, the
seen-fragment cache and the seen-names list. -/
structure EsnState where
  room : Nat
  isTail : Bool
  esnOn : Bool
  name2dev : List Nat → Option Nat
  mac2dev : List Nat → Option Nat
  bestRssi : RoomDevKey → Option Int
  seenCache : List SeenKey
  seenNames : List (List Nat)

/-- Printable prefix taken by sanitizePrefix (part_002 line 109): the copy
loop breaks at the first byte outside 32..126. -/
def printableTake (l : List Nat) : List Nat :=
  l.takeWhile (fun c => decide (32 ≤ c) && decide (c ≤ 126))

/-- The trim() call of sanitizePrefix: after printableTake only bytes in
32..126 remain, so trimming whitespace drops leading and trailing spaces. -/
def trimSpaces (l : List Nat) : List Nat :=
  ((l.dropWhile (fun c => c == 32)).reverse.dropWhile (fun c => c == 32)).reverse

/-- The space-collapsing loop of sanitizePrefix: runs of spaces or tabs
become a single space; the flag is the lastSpace variable. -/
def collapseSpaces : List Nat → Bool → List Nat
  | [], _ => []
  | c :: rest, lastSpace =>
    if c = 32 ∨ c = 9 then
      (if lastSpace then [] else [32]) ++ collapseSpaces rest true
    else c :: collapseSpaces rest false

/-- sanitizePrefix from part_002 line 109: printable prefix, trim, collapse
spaces. -/
def sanitizePrefix (l : List Nat) : List Nat :=
  collapseSpaces (trimSpaces (printableTake l)) false

/-- addSeen from part_002 line 279: empty names are dropped, a known name is
moved to the front, a new name is inserted at the front and the list is
truncated to g_seen_max = 128 entries. -/
def addSeen (san : List Nat) (names : List (List Nat)) : List (List Nat) :=
  if san = [] then names
  else if san ∈ names then san :: names.erase san
  else if names.length + 1 > 128 then (san :: names).dropLast
  else san :: names

/-- The strongest-wins update of parseAndMaybeRecord (part_002 line 314):
store when the key is absent or the new rssi is strictly greater. -/
def recordBestRssi (tbl : RoomDevKey → Option Int) (k : RoomDevKey) (rssi : Int) :
    RoomDevKey → Option Int :=
  match tbl k with
  | none => fun k2 => if k2 = k then some rssi else tbl k2
  | some w => if rssi > w then (fun k2 => if k2 = k then some rssi else tbl k2) else tbl

/-- The device-record TLV loop of parseAndMaybeRecord (part_002 lines
298-315), one recursive call per loop iteration. The accumulator carries the
bestRssi table and the seenNames list; ed is the end of the payload (n-2),
the unbound sentinel 0xFFFF = 65535 follows the source. -/
def parseRecords (n2d m2d : List Nat → Option Nat) (m : List Nat) (ed : Nat) (src : Nat) :
    Nat → Nat → (RoomDevKey → Option Int) × List (List Nat) →
      (RoomDevKey → Option Int) × List (List Nat)
  | 0, _, acc => acc
  | count + 1, p, acc =>
    if p + 2 > ed then acc else
    let T := byteAt m p
    let L := byteAt m (p + 1)
    let p1 := p + 2
    if ¬(T = 1 ∧ L = 6) ∨ p1 + 6 > ed then acc else
    let mac := (m.drop p1).take 6
    let p2 := p1 + 6
    if p2 + 2 > ed then acc else
    let T2 := byteAt m p2
    let L2 := byteAt m (p2 + 1)
    let p3 := p2 + 2
    if ¬(T2 = 2 ∧ L2 = 1) ∨ p3 + 1 > ed then acc else
    let rssi := int8 (byteAt m p3)
    let p4 := p3 + 1
    if p4 + 2 > ed then acc else
    let T3 := byteAt m p4
    let L3 := byteAt m (p4 + 1)
    let p5 := p4 + 2
    if ¬(T3 = 3 ∧ L3 = 1) ∨ p5 + 1 > ed then acc else
    let p6 := p5 + 1
    let nameRaw : List Nat :=
      if p6 + 2 ≤ ed ∧ byteAt m p6 = 4 ∧ p6 + 2 + byteAt m (p6 + 1) ≤ ed then
        (m.drop (p6 + 2)).take (byteAt m (p6 + 1))
      else []
    let p7 :=
      if p6 + 2 ≤ ed ∧ byteAt m p6 = 4 then
        (if p6 + 2 + byteAt m (p6 + 1) ≤ ed then p6 + 2 + byteAt m (p6 + 1) else p6 + 2)
      else p6
    let nameSan := sanitizePrefix nameRaw
    let names1 := if nameRaw ≠ [] then addSeen nameSan acc.2 else acc.2
    let dn1 : Nat :=
      if nameSan ≠ [] then (match n2d nameSan with | some d => d | none => 65535)
      else 65535
    let dn2 : Nat :=
      if dn1 = 65535 then (match m2d mac with | some d => d | none => 65535) else dn1
    let tbl1 :=
      if dn2 ≠ 65535 then recordBestRssi acc.1 ⟨src, dn2⟩ rssi else acc.1
    parseRecords n2d m2d m ed src count p7 (tbl1, names1)

/-- parseAndMaybeRecord from part_002 lines 293-316: reads the count field at
offset 14 and runs the TLV loop from offset 16 up to n-2. -/
def parseAndMaybeRecord (st : EsnState) (m : List Nat) (src : Nat) : EsnState :=
  let r := parseRecords st.name2dev st.mac2dev m (m.length - 2) src (le16 m 14) 16
    (st.bestRssi, st.seenNames)
  { st with bestRssi := r.1, seenNames := r.2 }

/-- endOfScanFlush from part_002 lines 281-291: prints and erases every
bestRssi entry whose room equals the flushed room. -/
def endOfScanFlush (st : EsnState) (flushRoom : Nat) : EsnState :=
  { st with bestRssi := fun k => if k.room = flushRoom then none else st.bestRssi k }

/-- Bounded FIFO insertion into the seen cache (part_002 lines 239 and
331-332): evict the oldest entry when SEEN_CACHE_MAX = 256 is reached, then
push at the back. -/
def seenCachePush (cache : List SeenKey) (sk : SeenKey) : List SeenKey :=
  (if cache.length ≥ 256 then cache.drop 1 else cache) ++ [sk]

/-- The forwarding guard shared by processDecodedMessage lines 339-342 and
forward_upstream lines 261-262: ESP-NOW on, not the tail, and the source room
is this room or the previous one ((uint8_t)(g_room-1) wraps modulo 256). -/
def forwardGuard (st : EsnState) (src : Nat) : Bool :=
  st.esnOn && !st.isTail && (decide (src = st.room) || decide (src = (st.room + 255) % 256))

/-- The seen key processDecodedMessage builds from a decoded message: origin
at offset 2, batch at 8, seq at 12, plus the source room. -/
def msgSeenKey (m : List Nat) (src : Nat) : SeenKey :=
  { origin := (m.drop 2).take 6, batch := le32 m 8, seq := le16 m 12, src_room := src }

/-- processDecodedMessage from part_002 lines 318-343. Returns the new state
and whether forward_upstream was invoked. A short message or a CRC mismatch
returns the state untouched; a key already in the seen cache skips the merge
(the goto maybe_forward) but still reaches the forwarding branch. -/
def processDecodedMessage (st : EsnState) (m : List Nat) (src : Nat) : EsnState × Bool :=
  if m.length < 1 + 1 + 6 + 4 + 2 + 2 + 2 then (st, false) else
  if le16 m (m.length - 2) ≠ crc16_ccitt (m.take (m.length - 2)) then (st, false) else
  let sk := msgSeenKey m src
  if sk ∈ st.seenCache then (st, forwardGuard st src) else
  let st1 := { st with seenCache := seenCachePush st.seenCache sk }
  let st2 := if byteAt m 1 = 1 then endOfScanFlush st1 src else parseAndMaybeRecord st1 m src
  (st2, forwardGuard st src)

/-- Tail of the ESP-NOW receive callback of part_002 (lines 237-239): once a
message is fully reassembled, its key is checked against the seen cache; a
duplicate is dropped entirely, otherwise the key is recorded and the message
is processed. Returns the state and whether forward_upstream was invoked. -/
def esnCompleteDeliver (st : EsnState) (origin : List Nat) (batch seq src : Nat)
    (msg : List Nat) : EsnState × Bool :=
  let sk : SeenKey := { origin := origin, batch := batch, seq := seq, src_room := src }
  if sk ∈ st.seenCache then (st, false) else
  processDecodedMessage { st with seenCache := seenCachePush st.seenCache sk } msg src

/-- Reassembly buffer for one (origin, batch, seq, src_room) key (struct
ReasmBuf, part_002 lines 96-103). The source stores fragment payloads in a
total × ESN_FRAG_DATA_MAX arena and slices slot i to frag_len i on assembly;
here slot i holds the stored payload directly (the field named have in the
source is haveIdx, have being a Lean keyword). -/
structure ReasmBuf where
  total : Nat
  haveIdx : List Bool
  fragLen : List Nat
  data : List (List Nat)
deriving DecidableEq

/-- A freshly allocated reassembly buffer (part_002 lines 210-217). -/
def initReasm (total : Nat) : ReasmBuf :=
  { total := total
    haveIdx := List.replicate total false
    fragLen := List.replicate total 0
    data := List.replicate total [] }

/-- One fragment arrival for the buffer's key (part_002 lines 221-228): an
out-of-range index is ignored, a slot already filled is left alone, otherwise
the payload is stored in the slot. -/
def reasmStep (rb : ReasmBuf) (f : Nat × List Nat) : ReasmBuf :=
  if rb.total ≤ f.1 then rb
  else if rb.haveIdx.getD f.1 false then rb
  else
    { rb with
      haveIdx := rb.haveIdx.set f.1 true
      fragLen := rb.fragLen.set f.1 f.2.length
      data := rb.data.set f.1 f.2 }

/-- Completeness test (part_002 line 229): every slot is filled. -/
def reasmComplete (rb : ReasmBuf) : Bool := rb.haveIdx.all (fun b => b)

/-- The reassembled byte sequence (part_002 lines 231-233): concatenation of
the stored payloads in index order. -/
def reasmAssembled (rb : ReasmBuf) : List Nat := rb.data.flatten

/-- Deliver a list of fragments (index, payload) for one key to a fresh
buffer created with the given total. -/
def runReasm (total : Nat) (frags : List (Nat × List Nat)) : ReasmBuf :=
  frags.foldl reasmStep (initReasm total)

/-- Packed wire entry of ice_ble_uart (struct Entry, lines 99-103): device
id (uint16), rssi (int8) and room (uint8). -/
structure Entry where
  dev : Nat
  rssi : Int
  room : Nat
deriving DecidableEq

/-- Value stored per device in chainBest (struct BestVal, line 78). -/
structure BestVal where
  rssi : Int
  room : Nat
deriving DecidableEq

/-- Lookup in the chainBest map, modelled as an association list with unique
keys (std::map from dev to BestVal). -/
def cbFind (l : List (Nat × BestVal)) (dev : Nat) : Option BestVal :=
  (l.find? (fun p => decide (p.1 = dev))).map (fun p => p.2)

/-- Map-style store into chainBest: replace the entry for the key when
present, append otherwise. -/
def cbInsert (l : List (Nat × BestVal)) (dev : Nat) (bv : BestVal) :
    List (Nat × BestVal) :=
  if (l.find? (fun p => decide (p.1 = dev))).isSome then
    l.map (fun p => if p.1 = dev then (dev, bv) else p)
  else l ++ [(dev, bv)]

/-- Merge one received entry into chainBest (ice_ble_uart lines 298-304):
store when the device is absent or the incoming rssi is strictly greater. -/
def chainMergeEntry (l : List (Nat × BestVal)) (e : Entry) : List (Nat × BestVal) :=
  match cbFind l e.dev with
  | none => cbInsert l e.dev ⟨e.rssi, e.room⟩
  | some bv => if e.rssi > bv.rssi then cbInsert l e.dev ⟨e.rssi, e.room⟩ else l

/-- Merge all entries of a fragment, in order. -/
def chainMergeAll (l : List (Nat × BestVal)) (es : List Entry) : List (Nat × BestVal) :=
  es.foldl chainMergeEntry l

/-- A v2 chain fragment as the ice_ble_uart receive callback sees it (struct
EsnHdr plus its entries). -/
structure EsnFragV2 where
  src_room : Nat
  total : Nat
  index : Nat
  batch : Nat
  entries : List Entry
deriving DecidableEq

/-- Tail-node state of the ice_ble_uart receive callback: the chainBest map
and the static lastPrinted batch id (line 341). -/
structure TailState where
  chainBest : List (Nat × BestVal)
  lastPrinted : Nat
deriving DecidableEq

/-- The tail branch of the ice_ble_uart receive callback (lines 280-304 and
338-352) for a node with the given room: drop fragments that are not from
this room or the previous one, merge the entries into chainBest, and print
the final snapshot exactly when this is the last fragment (index = total - 1
over the integers, as the C comparison promotes) and its batch id differs
from lastPrinted. An emitted line is (room, dev, rssi), the room taken from
the chainBest value. -/
def tailStep (room : Nat) (st : TailState) (h : EsnFragV2) :
    TailState × Option (List (Nat × Nat × Int)) :=
  if ¬(h.src_room = room ∨ h.src_room = (room + 255) % 256) then (st, none) else
  let cb := chainMergeAll st.chainBest h.entries
  if (h.index : Int) = (h.total : Int) - 1 ∧ h.batch ≠ st.lastPrinted then
    ({ chainBest := cb, lastPrinted := h.batch },
      some (cb.map (fun p => (p.2.room, p.1, p.2.rssi))))
  else ({ st with chainBest := cb }, none)

/-- The non-tail branch of the same callback, restricted to its effect on
chainBest (lines 289-337): fragments from this or the previous room are
merged into chainBest, which is then re-fragmented and re-sent; the map is
never cleared and the fragment's batch id is never compared with any stored
batch. -/
def iceFwdStep (room : Nat) (cb : List (Nat × BestVal)) (h : EsnFragV2) :
    List (Nat × BestVal) :=
  if ¬(h.src_room = room ∨ h.src_room = (room + 255) % 256) then cb
  else chainMergeAll cb h.entries

/-- Batch-origination state of an ice_ble_uart node: room, batch counter and
chainBest. -/
structure IceNodeState where
  room : Nat
  batch : Nat
  chainBest : List (Nat × BestVal)
deriving DecidableEq

/-- startNewBatchIfRoom1 from ice_ble_uart lines 383-389: only a node whose
room is 1 increments the batch id and clears its chain table. -/
def startNewBatchIfRoom1 (st : IceNodeState) : IceNodeState :=
  if st.room = 1 then { st with batch := st.batch + 1, chainBest := [] } else st

/-- The localBest update of pollUART (ice_ble_uart lines 441-443): store
when the device is absent or the new rssi is strictly greater. -/
def recordLocalBest (t : Nat → Option Int) (dev : Nat) (v : Int) : Nat → Option Int :=
  match t dev with
  | none => fun d => if d = dev then some v else t d
  | some w => if v > w then (fun d => if d = dev then some v else t d) else t

/-- MAX_TAG_ID from smoke_chain_s3 line 626. -/
def MAX_TAG_ID : Nat := 1024

/-- FLUSH_PERIOD_MS from smoke_chain_s3 line 628: the flush cycle fires
every 600 milliseconds. -/
def FLUSH_PERIOD_MS : Nat := 600

/-- The bestStr/bestRoom update of pumpICE (smoke_chain_s3 lines 786-789):
for a tag inside 1..MAX_TAG_ID, a strength at least the stored one replaces
it and stamps the node's own room. -/
def smokeRecord (bs br : Nat → Nat) (tag st room : Nat) : (Nat → Nat) × (Nat → Nat) :=
  if 1 ≤ tag ∧ tag ≤ MAX_TAG_ID then
    if st ≥ bs tag then
      (fun i => if i = tag then st else bs i, fun i => if i = tag then room else br i)
    else (bs, br)
  else (bs, br)

/-- One token of the AGG merge in the smoke_chain_s3 receive callback (lines
892-899): parsed room, tag and strength; the strength is clamped to 0..100
and, when at least the stored strength, replaces it together with the origin
room ((uint8_t)room wraps modulo 256). -/
def aggMergeTok (bs br : Nat → Nat) (room : Int) (tag : Nat) (str : Int) :
    (Nat → Nat) × (Nat → Nat) :=
  if 1 ≤ tag ∧ tag ≤ MAX_TAG_ID then
    let s : Int := if str < 0 then 0 else if str > 100 then 100 else str
    if s ≥ (bs tag : Int) then
      (fun i => if i = tag then s.toNat else bs i,
        fun i => if i = tag then (room % 256).toNat else br i)
    else (bs, br)
  else (bs, br)

/-- The AGG snapshot built by forwardAggOrPrint (smoke_chain_s3 lines
726-739): one (room, tag, strength) triple per tag with nonzero strength,
the room falling back to the node's own room when bestRoom is 0. -/
def aggSnapshot (bs br : Nat → Nat) (roomNo : Nat) : List (Nat × Nat × Nat) :=
  (List.range' 1 MAX_TAG_ID).filterMap
    (fun i => if bs i ≠ 0 then some ((if br i ≠ 0 then br i else roomNo), i, bs i) else none)

/-- The strength decay at the end of forwardAggOrPrint (lines 754-755): a
nonzero strength shrinks by 2, stopping at 0; tags outside 1..MAX_TAG_ID are
not visited by the loop. -/
def decayStr (bs : Nat → Nat) : Nat → Nat := fun i =>
  if 1 ≤ i ∧ i ≤ MAX_TAG_ID then
    (if bs i ≠ 0 then (if bs i > 2 then bs i - 2 else 0) else bs i)
  else bs i

/-- The room clearing in the same loop (line 756): the room of a tag whose
decayed strength is 0 is reset to 0. -/
def decayRoom (bs br : Nat → Nat) : Nat → Nat := fun i =>
  if 1 ≤ i ∧ i ≤ MAX_TAG_ID then (if decayStr bs i = 0 then 0 else br i) else br i

/-- One full flush cycle of forwardAggOrPrint: the emitted (or forwarded)
snapshot, then the decayed tables. -/
def flushStep (bs br : Nat → Nat) (roomNo : Nat) :
    List (Nat × Nat × Nat) × (Nat → Nat) × (Nat → Nat) :=
  (aggSnapshot bs br roomNo, decayStr bs, decayRoom bs br)

/-- k flush cycles applied to the strength/room tables. -/
def flushIter (bs br : Nat → Nat) : Nat → (Nat → Nat) × (Nat → Nat)
  | 0 => (bs, br)
  | k + 1 => let s := flushIter bs br k; (decayStr s.1, decayRoom s.1 s.2)

/-- ESN_PAYLOAD_MAX from ice_ble_uart line 35: the ESP-NOW transport payload
ceiling in bytes. -/
def ESN_PAYLOAD_MAX : Nat := 250

/-- ESN_FRAG_DATA_MAX from ice_ble_uart line 36. -/
def ESN_FRAG_DATA_MAX : Nat := 200

/-- sizeof(Entry) for the packed struct: 2 + 1 + 1 bytes. -/
def ENTRY_BYTES : Nat := 4

/-- sizeof(EsnHdr) for the packed struct: seven single bytes plus the 4-byte
batch id. -/
def ESN_HDR_BYTES : Nat := 11

/-- A fragment as built by esn_send_entries: header fields and the entries
copied behind the header. -/
structure SendFrag where
  src_room : Nat
  total : Nat
  index : Nat
  count : Nat
  batch : Nat
  entries : List Entry
deriving DecidableEq

/-- esn_send_entries from ice_ble_uart lines 359-377: at most perFrag =
ESN_FRAG_DATA_MAX / sizeof(Entry) entries per fragment, the total cast to
uint8 (modulo 256) and forced to at least 1, the fragments emitted with
indices 0, 1, ..., total-1. -/
def esn_send_entries (room : Nat) (vec : List Entry) (batch : Nat) : List SendFrag :=
  let perFrag := ESN_FRAG_DATA_MAX / ENTRY_BYTES
  let total0 := ((vec.length + perFrag - 1) / perFrag) % 256
  let total := if total0 = 0 then 1 else total0
  (List.range total).map (fun idx =>
    let off := idx * perFrag
    let take := min perFrag (vec.length - off)
    { src_room := room, total := total, index := idx, count := take, batch := batch,
      entries := (vec.drop off).take take })

/-- Encoded size of a fragment on the wire: the header plus
count * sizeof(Entry) bytes (ice_ble_uart line 371). -/
def fragBytes (f : SendFrag) : Nat := ESN_HDR_BYTES + f.count * ENTRY_BYTES

/-- A message with bit j of byte i flipped. -/
def flipBit (m : List Nat) (i j : Nat) : List Nat :=
  m.set i (byteAt m i ^^^ (1 <<< j))

/-- A concrete well-formed encoded message: a 16-byte header of zeros
followed by its crc16_ccitt checksum, little endian. -/
def zeroMsg : List Nat := List.replicate 16 0 ++ [10, 106]

section RecordLemmas

/-- Reading the localBest table right after a pollUART update: the stored
value is the new one when the slot was empty or beaten, else the old one. -/
theorem recordLocalBest_at (t : Nat → Option Int) (dev : Nat) (v : Int) :
    recordLocalBest t dev v dev = some ((t dev).elim v (fun w => max w v)) := by
  unfold recordLocalBest
  cases h : t dev with
  | none => simp [h]
  | some w =>
    by_cases hv : v > w
    · simp [h, hv, max_eq_right hv.le]
    · simp [h, hv, max_eq_left (not_lt.mp hv)]

/-- Reading the bestRssi table right after a parseAndMaybeRecord update. -/
theorem recordBestRssi_at (tbl : RoomDevKey → Option Int) (k : RoomDevKey) (v : Int) :
    recordBestRssi tbl k v k = some ((tbl k).elim v (fun w => max w v)) := by
  unfold recordBestRssi
  cases h : tbl k with
  | none => simp [h]
  | some w =>
    by_cases hv : v > w
    · simp [h, hv, max_eq_right hv.le]
    · simp [h, hv, max_eq_left (not_lt.mp hv)]

/-- Recording the value a localBest slot already holds changes nothing. -/
theorem recordLocalBest_idem (u : Nat → Option Int) (dev : Nat) (v : Int)
    (hu : u dev = some v) : recordLocalBest u dev v = u := by
  unfold recordLocalBest
  rw [hu]
  simp

/-- Reading the bestStr array right after a pumpICE update: the stored
strength is the maximum of the old and the new one. -/
theorem smokeRecord_str_at (bs br : Nat → Nat) (tag v room : Nat)
    (h : 1 ≤ tag ∧ tag ≤ MAX_TAG_ID) :
    (smokeRecord bs br tag v room).1 tag = max (bs tag) v := by
  unfold smokeRecord
  rcases le_or_lt (bs tag) v with hv | hv
  · simp [h, hv, max_eq_right hv]
  · simp [h, not_le.mpr hv, max_eq_left hv.le]

end RecordLemmas

/-- C1: for every entity id and every pair of signal strengths recorded into
a node's aggregation table in either order (with no intervening reset or
decay), the table afterwards holds max(s1, s2) as the stored strength for
that id, and a repeated record of the same strength changes nothing. Stated
for all three aggregation tables of the sources: localBest (pollUART),
bestStr (pumpICE) and bestRssi (parseAndMaybeRecord). -/
theorem record_strongest_wins_max (t : Nat → Option Int) (bs br : Nat → Nat)
    (tbl : RoomDevKey → Option Int) (dev tag srcRoom nodeRoom : Nat)
    (s1 s2 : Int) (u1 u2 : Nat)
    (hloc : t dev = none) (hbs : bs tag = 0) (htag : 1 ≤ tag ∧ tag ≤ MAX_TAG_ID)
    (hrd : tbl ⟨srcRoom, dev⟩ = none) :
    recordLocalBest (recordLocalBest t dev s1) dev s2 dev = some (max s1 s2) ∧
    recordLocalBest (recordLocalBest t dev s2) dev s1 dev = some (max s1 s2) ∧
    recordLocalBest (recordLocalBest t dev s1) dev s1 = recordLocalBest t dev s1 ∧
    (smokeRecord (smokeRecord bs br tag u1 nodeRoom).1
        (smokeRecord bs br tag u1 nodeRoom).2 tag u2 nodeRoom).1 tag = max u1 u2 ∧
    (smokeRecord (smokeRecord bs br tag u2 nodeRoom).1
        (smokeRecord bs br tag u2 nodeRoom).2 tag u1 nodeRoom).1 tag = max u1 u2 ∧
    recordBestRssi (recordBestRssi tbl ⟨srcRoom, dev⟩ s1) ⟨srcRoom, dev⟩ s2
        ⟨srcRoom, dev⟩ = some (max s1 s2) ∧
    recordBestRssi (recordBestRssi tbl ⟨srcRoom, dev⟩ s2) ⟨srcRoom, dev⟩ s1
        ⟨srcRoom, dev⟩ = some (max s1 s2) := by
  have l1 : ∀ a b : Int, recordLocalBest (recordLocalBest t dev a) dev b dev
      = some (max a b) := by
    intro a b
    have h1 : recordLocalBest t dev a dev = some a := by
      rw [recordLocalBest_at, hloc]
      rfl
    rw [recordLocalBest_at, h1]
    rfl
  have l2 : ∀ a b : Int, recordBestRssi (recordBestRssi tbl ⟨srcRoom, dev⟩ a)
      ⟨srcRoom, dev⟩ b ⟨srcRoom, dev⟩ = some (max a b) := by
    intro a b
    have h1 : recordBestRssi tbl ⟨srcRoom, dev⟩ a ⟨srcRoom, dev⟩ = some a := by
      rw [recordBestRssi_at, hrd]
      rfl
    rw [recordBestRssi_at, h1]
    rfl
  have l3 : ∀ a b : Nat, (smokeRecord (smokeRecord bs br tag a nodeRoom).1
      (smokeRecord bs br tag a nodeRoom).2 tag b nodeRoom).1 tag = max a b := by
    intro a b
    rw [smokeRecord_str_at _ _ _ _ _ htag, smokeRecord_str_at _ _ _ _ _ htag, hbs]
    simp [Nat.max_comm]
  have lidem : recordLocalBest (recordLocalBest t dev s1) dev s1
      = recordLocalBest t dev s1 := by
    refine recordLocalBest_idem _ dev s1 ?_
    rw [recordLocalBest_at, hloc]
    rfl
  refine ⟨l1 s1 s2, ?_, lidem, l3 u1 u2, ?_, l2 s1 s2, ?_⟩
  · rw [l1 s2 s1, max_comm]
  · rw [l3 u2 u1, Nat.max_comm]
  · rw [l2 s2 s1, max_comm]

/-- Witness for C1 at a concrete input: an empty table, device 3 and tag 5,
strengths 2 and 7. -/
theorem record_strongest_wins_max_witness :
    recordLocalBest (recordLocalBest (fun _ => none) 3 2) 3 7 3 = some (max 2 7) ∧
    recordLocalBest (recordLocalBest (fun _ => none) 3 7) 3 2 3 = some (max 2 7) ∧
    recordLocalBest (recordLocalBest (fun _ => (none : Option Int)) 3 2) 3 2
      = recordLocalBest (fun _ => none) 3 2 ∧
    (smokeRecord (smokeRecord (fun _ => 0) (fun _ => 0) 5 2 1).1
        (smokeRecord (fun _ => 0) (fun _ => 0) 5 2 1).2 5 7 1).1 5 = max 2 7 ∧
    (smokeRecord (smokeRecord (fun _ => 0) (fun _ => 0) 5 7 1).1
        (smokeRecord (fun _ => 0) (fun _ => 0) 5 7 1).2 5 2 1).1 5 = max 7 2 ∧
    recordBestRssi (recordBestRssi (fun _ => none) ⟨1, 3⟩ 2) ⟨1, 3⟩ 7 ⟨1, 3⟩
      = some (max 2 7) ∧
    recordBestRssi (recordBestRssi (fun _ => none) ⟨1, 3⟩ 7) ⟨1, 3⟩ 2 ⟨1, 3⟩
      = some (max 2 7) := by
  have h := record_strongest_wins_max (fun _ => none) (fun _ => 0) (fun _ => 0)
    (fun _ => none) 3 5 1 1 2 7 2 7 rfl rfl (by decide) rfl
  rcases h with ⟨h1, h2, h3, h4, h5, h6, h7⟩
  exact ⟨h1, h2, h3, h4, by rw [h5, Nat.max_comm], h6, h7⟩

/-- C2 counterexample: merging an observation whose strength ties the stored
strength does not leave the stored origin zone unchanged in the
smoke_chain_s3 AGG merge. Tag 5 is first recorded at strength 50 from zone
1; a tie merge at strength 50 from zone 2 overwrites the stored zone with 2,
so the latest-recorded zone wins the tie there, not the earliest. -/
theorem agg_merge_tie_overwrites_zone :
    (aggMergeTok (fun _ => 0) (fun _ => 0) 1 5 50).2 5 = 1 ∧
    (aggMergeTok (aggMergeTok (fun _ => 0) (fun _ => 0) 1 5 50).1
        (aggMergeTok (fun _ => 0) (fun _ => 0) 1 5 50).2 2 5 50).1 5 = 50 ∧
    (aggMergeTok (aggMergeTok (fun _ => 0) (fun _ => 0) 1 5 50).1
        (aggMergeTok (fun _ => 0) (fun _ => 0) 1 5 50).2 2 5 50).2 5 = 2 := by
  refine ⟨?_, ?_, ?_⟩ <;> decide

/-- C2 as amended: in the ice_ble_uart chain merge (strict greater-than), a
merge whose signal strength is at most the stored strength — a tie included —
leaves the table, and in particular the stored origin zone, unchanged; the
AGG merge of smoke_chain_s3 instead lets a tie overwrite the stored zone. -/
theorem chainBest_tie_keeps_earliest_zone (l : List (Nat × BestVal)) (e : Entry)
    (bv : BestVal) (hfind : cbFind l e.dev = some bv) (hle : e.rssi ≤ bv.rssi) :
    chainMergeEntry l e = l := by
  unfold chainMergeEntry
  rw [hfind]
  simp [not_lt.mpr hle]

/-- Witness for C2's amended theorem: device 4 stored at rssi -50 from zone
1; a tie merge at rssi -50 from zone 2 leaves the table unchanged. -/
theorem chainBest_tie_keeps_earliest_zone_witness :
    chainMergeEntry [(4, ⟨-50, 1⟩)] ⟨4, -50, 2⟩ = [(4, ⟨-50, 1⟩)] :=
  chainBest_tie_keeps_earliest_zone [(4, ⟨-50, 1⟩)] ⟨4, -50, 2⟩ ⟨-50, 1⟩
    (by decide) (by decide)

/-- C3 counterexample: a non-origin ice_ble_uart node (room 2) merges a
batch-1 fragment carrying device 7 at rssi 90, then a batch-2 fragment
carrying device 8 at rssi 10. Its chain-merge table is never reset on the
batch change: after the batch-2 merge it still holds the batch-1 device 7,
so the table does not contain only batch-2 entities. -/
theorem stale_batch_entities_survive_merge :
    cbFind (iceFwdStep 2 (iceFwdStep 2 [] ⟨1, 1, 0, 1, [⟨7, 90, 1⟩]⟩)
        ⟨1, 1, 0, 2, [⟨8, 10, 1⟩]⟩) 7 = some ⟨90, 1⟩ ∧
    cbFind (iceFwdStep 2 (iceFwdStep 2 [] ⟨1, 1, 0, 1, [⟨7, 90, 1⟩]⟩)
        ⟨1, 1, 0, 2, [⟨8, 10, 1⟩]⟩) 8 = some ⟨10, 1⟩ := by
  refine ⟨?_, ?_⟩ <;> decide

/-- C3 as amended: only the origin node (room 1) resets its chain-merge
table, and it does so by clearing the table and advancing the batch id when
it starts a new batch on an END marker (startNewBatchIfRoom1); a node whose
room is not 1 never resets its merge table this way, so entities of an
earlier batch persist across batch changes on non-origin nodes. -/
theorem origin_reset_clears_merge_table (st : IceNodeState) (h1 : st.room = 1) :
    (startNewBatchIfRoom1 st).chainBest = [] ∧
    (startNewBatchIfRoom1 st).batch = st.batch + 1 ∧
    ∀ st2 : IceNodeState, st2.room ≠ 1 → startNewBatchIfRoom1 st2 = st2 := by
  refine ⟨?_, ?_, ?_⟩
  · simp [startNewBatchIfRoom1, h1]
  · simp [startNewBatchIfRoom1, h1]
  · intro st2 h2
    simp [startNewBatchIfRoom1, h2]

/-- Witness for C3's amended theorem: a room-1 node with batch 5 and one
stored device clears its table and moves to batch 6. -/
theorem origin_reset_clears_merge_table_witness :
    (startNewBatchIfRoom1 ⟨1, 5, [(7, ⟨90, 1⟩)]⟩).chainBest = [] ∧
    (startNewBatchIfRoom1 ⟨1, 5, [(7, ⟨90, 1⟩)]⟩).batch = 5 + 1 ∧
    ∀ st2 : IceNodeState, st2.room ≠ 1 → startNewBatchIfRoom1 st2 = st2 :=
  origin_reset_clears_merge_table ⟨1, 5, [(7, ⟨90, 1⟩)]⟩ rfl

/-- C9: for every non-empty entity list handed to esn_send_entries, every
produced fragment's encoded size (header bytes plus entry bytes) is at most
the 250-byte transport payload ceiling, the total field in every fragment
header equals the number of fragments actually produced, and the fragment
indices are assigned in emission order 0, 1, ..., total-1. -/
theorem fragmentation_respects_payload_ceiling (room : Nat) (vec : List Entry)
    (batch : Nat) (hne : vec ≠ []) :
    (∀ f ∈ esn_send_entries room vec batch,
      fragBytes f ≤ ESN_PAYLOAD_MAX ∧
        f.total = (esn_send_entries room vec batch).length) ∧
    (esn_send_entries room vec batch).map (fun f => f.index)
      = List.range (esn_send_entries room vec batch).length := by
  have hlen : (esn_send_entries room vec batch).length
      = (if ((vec.length + 50 - 1) / 50) % 256 = 0 then 1
          else ((vec.length + 50 - 1) / 50) % 256) := by
    simp [esn_send_entries, ESN_FRAG_DATA_MAX, ENTRY_BYTES]
  refine ⟨?_, ?_⟩
  · intro f hf
    simp only [esn_send_entries, ESN_FRAG_DATA_MAX, ENTRY_BYTES, List.mem_map,
      List.mem_range] at hf
    obtain ⟨idx, hidx, rfl⟩ := hf
    refine ⟨?_, ?_⟩
    · simp only [fragBytes, ESN_HDR_BYTES, ENTRY_BYTES, ESN_PAYLOAD_MAX]
      have hmin : min (200 / 4) (vec.length - idx * (200 / 4)) ≤ 50 := by
        exact le_trans (Nat.min_le_left _ _) (by norm_num)
      omega
    · rw [hlen]
  · simp only [esn_send_entries, ESN_FRAG_DATA_MAX, ENTRY_BYTES, List.map_map,
      List.length_map, List.length_range]
    exact List.map_id' _

/-- Witness for C9: one entry produces one fragment of 15 bytes, total 1,
index 0. -/
theorem fragmentation_respects_payload_ceiling_witness :
    (∀ f ∈ esn_send_entries 1 [⟨1, -40, 1⟩] 7,
      fragBytes f ≤ ESN_PAYLOAD_MAX ∧
        f.total = (esn_send_entries 1 [⟨1, -40, 1⟩] 7).length) ∧
    (esn_send_entries 1 [⟨1, -40, 1⟩] 7).map (fun f => f.index)
      = List.range (esn_send_entries 1 [⟨1, -40, 1⟩] 7).length :=
  fragmentation_respects_payload_ceiling 1 [⟨1, -40, 1⟩] 7 (by decide)

/-- The decay loop of forwardAggOrPrint decreases a stored strength by
exactly 2, stopping at 0 (truncated subtraction). -/
theorem decayStr_eq_sub (bs : Nat → Nat) (tag : Nat)
    (h : 1 ≤ tag ∧ tag ≤ MAX_TAG_ID) : decayStr bs tag = bs tag - 2 := by
  simp only [decayStr, if_pos h]
  split_ifs with h1 h2 <;> omega

/-- Strength after k flush cycles: the initial strength minus 2k, truncated
at 0. -/
theorem flushIter_str (bs br : Nat → Nat) (tag : Nat)
    (h : 1 ≤ tag ∧ tag ≤ MAX_TAG_ID) :
    ∀ k, (flushIter bs br k).1 tag = bs tag - 2 * k := by
  intro k
  induction k with
  | zero => simp [flushIter]
  | succ n ih =>
    show decayStr (flushIter bs br n).1 tag = _
    rw [decayStr_eq_sub _ _ h, ih]
    omega

/-- A tag appearing in the AGG snapshot has nonzero stored strength. -/
theorem mem_aggSnapshot_str_ne (bs br : Nat → Nat) (roomNo tag : Nat)
    (h : tag ∈ (aggSnapshot bs br roomNo).map (fun x => x.2.1)) : bs tag ≠ 0 := by
  simp only [aggSnapshot, List.mem_map, List.mem_filterMap] at h
  obtain ⟨x, ⟨i, hi, hx⟩, hxtag⟩ := h
  by_cases hb : bs i ≠ 0
  · rw [if_pos hb] at hx
    obtain rfl := Option.some_injective _ hx
    simp only at hxtag
    subst hxtag
    exact hb
  · rw [if_neg hb] at hx
    cases hx

/-- C10: after every flush cycle (fired every FLUSH_PERIOD_MS = 600 ms),
each tag's stored strength in the relay's best-strength table is decreased
by exactly 2, floored at 0; the stored origin room for a tag is cleared to 0
exactly when its decayed strength is 0; consequently a tag whose stored
strength is at most 2k and that receives no further observations is absent
from every emitted or forwarded AGG snapshot from the k-th flush cycle on —
in particular after ceil(s/2) cycles for initial strength s. -/
theorem flush_decay_and_expiry (bs br : Nat → Nat) (roomNo tag k : Nat)
    (htag : 1 ≤ tag ∧ tag ≤ MAX_TAG_ID) (hk : bs tag ≤ 2 * k) :
    decayStr bs tag = bs tag - 2 ∧
    decayRoom bs br tag = (if decayStr bs tag = 0 then 0 else br tag) ∧
    FLUSH_PERIOD_MS = 600 ∧
    (flushIter bs br k).1 tag = 0 ∧
    ∀ j, k ≤ j →
      tag ∉ (flushStep (flushIter bs br j).1 (flushIter bs br j).2 roomNo).1.map
        (fun x => x.2.1) := by
  refine ⟨decayStr_eq_sub bs tag htag, ?_, rfl, ?_, ?_⟩
  · simp only [decayRoom, if_pos htag]
  · rw [flushIter_str bs br tag htag k]
    omega
  · intro j hj hmem
    have h0 : (flushIter bs br j).1 tag = 0 := by
      rw [flushIter_str bs br tag htag j]
      omega
    exact mem_aggSnapshot_str_ne _ _ _ _ hmem h0

/-- Witness for C10: tag 5 at strength 7 is gone after 4 flush cycles. -/
theorem flush_decay_and_expiry_witness :
    decayStr (fun i => if i = 5 then 7 else 0) 5 = 7 - 2 ∧
    decayRoom (fun i => if i = 5 then 7 else 0) (fun _ => 3) 5
      = (if decayStr (fun i => if i = 5 then 7 else 0) 5 = 0 then 0 else 3) ∧
    FLUSH_PERIOD_MS = 600 ∧
    (flushIter (fun i => if i = 5 then 7 else 0) (fun _ => 3) 4).1 5 = 0 ∧
    ∀ j, 4 ≤ j →
      5 ∉ (flushStep (flushIter (fun i => if i = 5 then 7 else 0) (fun _ => 3) j).1
        (flushIter (fun i => if i = 5 then 7 else 0) (fun _ => 3) j).2 2).1.map
        (fun x => x.2.1) := by
  have h := flush_decay_and_expiry (fun i => if i = 5 then 7 else 0) (fun _ => 3)
    2 5 4 (by decide) (by norm_num)
  simpa using h

section ChainBestLemmas

/-- cbInsert keeps the chainBest key list duplicate-free. -/
theorem keys_cbInsert_nodup (l : List (Nat × BestVal)) (dev : Nat) (bv : BestVal)
    (h : (l.map Prod.fst).Nodup) : ((cbInsert l dev bv).map Prod.fst).Nodup := by
  unfold cbInsert
  split_ifs with hf
  · have hkeys : (l.map (fun p => if p.1 = dev then (dev, bv) else p)).map Prod.fst
        = l.map Prod.fst := by
      rw [List.map_map]
      apply List.map_congr_left
      intro p _
      by_cases hp1 : p.1 = dev <;> simp [hp1]
    rw [hkeys]
    exact h
  · have hnone : l.find? (fun p => decide (p.1 = dev)) = none :=
      Option.not_isSome_iff_eq_none.mp hf
    have hdev : dev ∉ l.map Prod.fst := by
      intro hmem
      obtain ⟨p, hp, hp1⟩ := List.mem_map.mp hmem
      have := List.find?_eq_none.mp hnone p hp
      simp [hp1] at this
    simp [List.nodup_append, h, hdev]

/-- chainMergeEntry keeps the chainBest key list duplicate-free. -/
theorem keys_chainMergeEntry_nodup (l : List (Nat × BestVal)) (e : Entry)
    (h : (l.map Prod.fst).Nodup) : ((chainMergeEntry l e).map Prod.fst).Nodup := by
  unfold chainMergeEntry
  cases cbFind l e.dev with
  | none => exact keys_cbInsert_nodup l e.dev _ h
  | some bv =>
    by_cases hgt : e.rssi > bv.rssi
    · simpa [hgt] using keys_cbInsert_nodup l e.dev ⟨e.rssi, e.room⟩ h
    · simpa [hgt] using h

/-- chainMergeAll keeps the chainBest key list duplicate-free. -/
theorem keys_chainMergeAll_nodup (es : List Entry) :
    ∀ l : List (Nat × BestVal), (l.map Prod.fst).Nodup →
      ((chainMergeAll l es).map Prod.fst).Nodup := by
  induction es with
  | nil => intro l h; exact h
  | cons e rest ih =>
    intro l h
    exact ih (chainMergeEntry l e) (keys_chainMergeEntry_nodup l e h)

/-- With duplicate-free keys, membership determines the cbFind result. -/
theorem cbFind_of_mem (d : Nat) (bv : BestVal) :
    ∀ l : List (Nat × BestVal), (l.map Prod.fst).Nodup → (d, bv) ∈ l →
      cbFind l d = some bv := by
  intro l
  induction l with
  | nil => intro _ hm; cases hm
  | cons p rest ih =>
    intro h hm
    rw [List.map_cons, List.nodup_cons] at h
    obtain ⟨hp, hrest⟩ := h
    rcases List.mem_cons.mp hm with heq | hm2
    · subst heq
      simp [cbFind, List.find?_cons_of_pos]
    · by_cases hd : p.1 = d
      · exact absurd (hd ▸ List.mem_map.mpr ⟨(d, bv), hm2, rfl⟩) hp
      · have hfind : cbFind (p :: rest) d = cbFind rest d := by
          simp [cbFind, List.find?_cons_of_neg, hd]
        rw [hfind]
        exact ih hrest hm2

end ChainBestLemmas

/-- C4 counterexample: at the tail, with last fragments carrying batch ids
1, 2, 1 in that order, the snapshot is emitted three times — batch 1 is
emitted twice, because the guard only remembers the most recently printed
batch id. The aggregated snapshot is therefore not emitted at most once per
distinct batch id for every interleaving. -/
theorem tail_emits_same_batch_twice :
    (tailStep 2 ⟨[], 0⟩ ⟨1, 1, 0, 1, []⟩).2.isSome = true ∧
    (tailStep 2 (tailStep 2 ⟨[], 0⟩ ⟨1, 1, 0, 1, []⟩).1 ⟨1, 1, 0, 2, []⟩).2.isSome
      = true ∧
    (tailStep 2 (tailStep 2 (tailStep 2 ⟨[], 0⟩ ⟨1, 1, 0, 1, []⟩).1
      ⟨1, 1, 0, 2, []⟩).1 ⟨1, 1, 0, 1, []⟩).2.isSome = true := by
  refine ⟨?_, ?_, ?_⟩ <;> decide

/-- C4 as amended: the tail emits on a fragment exactly when the fragment is
accepted (from this room or the previous one), is the last of its message
(index = total - 1) and carries a batch id different from the most recently
emitted one; hence an immediate redelivery of the same fragment never emits
again (no duplicate emission for consecutive repeats of a batch id, though a
batch id can be emitted again after a different batch id was emitted in
between); and every entity in an emission carries the zone stored with its
winning observation in the merge table, not the tail's own zone. -/
theorem tail_emission_guard (room : Nat) (st : TailState) (h : EsnFragV2)
    (hnd : (st.chainBest.map Prod.fst).Nodup) :
    ((tailStep room st h).2.isSome ↔
      ((h.src_room = room ∨ h.src_room = (room + 255) % 256) ∧
        (h.index : Int) = (h.total : Int) - 1 ∧ h.batch ≠ st.lastPrinted)) ∧
    (tailStep room (tailStep room st h).1 h).2 = none ∧
    (∀ em, (tailStep room st h).2 = some em →
      ∀ r d s, (r, d, s) ∈ em →
        cbFind (tailStep room st h).1.chainBest d = some ⟨s, r⟩) := by
  by_cases hadj : h.src_room = room ∨ h.src_room = (room + 255) % 256
  · by_cases hcond : (h.index : Int) = (h.total : Int) - 1 ∧ h.batch ≠ st.lastPrinted
    · have hstep : tailStep room st h =
          ({ chainBest := chainMergeAll st.chainBest h.entries, lastPrinted := h.batch },
            some ((chainMergeAll st.chainBest h.entries).map
              (fun p => (p.2.room, p.1, p.2.rssi)))) := by
        simp [tailStep, hadj, hcond]
      refine ⟨?_, ?_, ?_⟩
      · rw [hstep]
        simp [hadj, hcond]
      · rw [hstep]
        simp [tailStep, not_not_intro hadj]
      · intro em hem r d s hmem
        rw [hstep] at hem
        obtain rfl := Option.some_injective _ hem
        obtain ⟨p, hp, hpe⟩ := List.mem_map.mp hmem
        obtain ⟨hr, hd, hs⟩ : p.2.room = r ∧ p.1 = d ∧ p.2.rssi = s := by
          refine ⟨congrArg (fun x => x.1) hpe, congrArg (fun x => x.2.1) hpe,
            congrArg (fun x => x.2.2) hpe⟩
        have hpd : (d, (⟨s, r⟩ : BestVal)) ∈ chainMergeAll st.chainBest h.entries := by
          have : p = (d, ⟨s, r⟩) := by
            cases p with
            | mk p1 p2 =>
              cases p2 with
              | mk q1 q2 =>
                simp only at hr hd hs
                subst hr; subst hd; subst hs
                rfl
          rw [← this]
          exact hp
        rw [hstep]
        exact cbFind_of_mem d ⟨s, r⟩ _ (keys_chainMergeAll_nodup h.entries _ hnd) hpd
    · have hstep : tailStep room st h =
          ({ st with chainBest := chainMergeAll st.chainBest h.entries }, none) := by
        simp [tailStep, not_not_intro hadj, hcond]
      refine ⟨?_, ?_, ?_⟩
      · rw [hstep]
        simp [hcond]
      · rw [hstep]
        simp [tailStep, not_not_intro hadj, hcond]
      · intro em hem
        rw [hstep] at hem
        cases hem
  · have hstep : tailStep room st h = (st, none) := by
      simp [tailStep, hadj]
    refine ⟨?_, ?_, ?_⟩
    · rw [hstep]
      simp [hadj]
    · rw [hstep]
      simp [tailStep, hadj]
    · intro em hem
      rw [hstep] at hem
      cases hem

/-- Witness for C4's amended theorem: a tail in room 2, a stored table with
one device and an accepted final fragment of batch 3. -/
theorem tail_emission_guard_witness :
    ((tailStep 2 ⟨[(7, ⟨90, 1⟩)], 0⟩ ⟨1, 1, 0, 3, []⟩).2.isSome ↔
      ((1 = 2 ∨ 1 = (2 + 255) % 256) ∧
        ((0 : Nat) : Int) = ((1 : Nat) : Int) - 1 ∧ 3 ≠ 0)) ∧
    (tailStep 2 (tailStep 2 ⟨[(7, ⟨90, 1⟩)], 0⟩ ⟨1, 1, 0, 3, []⟩).1
      ⟨1, 1, 0, 3, []⟩).2 = none ∧
    (∀ em, (tailStep 2 ⟨[(7, ⟨90, 1⟩)], 0⟩ ⟨1, 1, 0, 3, []⟩).2 = some em →
      ∀ r d s, (r, d, s) ∈ em →
        cbFind (tailStep 2 ⟨[(7, ⟨90, 1⟩)], 0⟩ ⟨1, 1, 0, 3, []⟩).1.chainBest d
          = some ⟨s, r⟩) :=
  tail_emission_guard 2 ⟨[(7, ⟨90, 1⟩)], 0⟩ ⟨1, 1, 0, 3, []⟩ (by decide)

section SeenCacheLemmas

/-- A key just pushed is in the cache. -/
theorem mem_seenCachePush_self (l : List SeenKey) (sk : SeenKey) :
    sk ∈ seenCachePush l sk := by
  simp [seenCachePush]

/-- A key pushed last survives one more bounded-FIFO push: eviction only
removes the oldest entry. -/
theorem mem_push_push (l : List SeenKey) (x y : SeenKey) :
    x ∈ seenCachePush (seenCachePush l x) y := by
  unfold seenCachePush
  set M := if l.length ≥ 256 then l.drop 1 else l with hM
  by_cases h2 : (M ++ [x]).length ≥ 256
  · rw [if_pos h2]
    have hMlen : 1 ≤ M.length := by
      simp only [List.length_append, List.length_cons, List.length_nil] at h2
      omega
    rw [List.drop_append_of_le_length hMlen]
    simp
  · rw [if_neg h2]
    simp

/-- The seen cache after processDecodedMessage: either untouched, or the
message's key pushed onto it. -/
theorem pdm_seenCache_shape (st : EsnState) (m : List Nat) (src : Nat) :
    (processDecodedMessage st m src).1.seenCache = st.seenCache ∨
    (processDecodedMessage st m src).1.seenCache
      = seenCachePush st.seenCache (msgSeenKey m src) := by
  by_cases h1 : m.length < 1 + 1 + 6 + 4 + 2 + 2 + 2
  · left; simp [processDecodedMessage, h1]
  by_cases h2 : le16 m (m.length - 2) = crc16_ccitt (m.take (m.length - 2))
  · by_cases h3 : msgSeenKey m src ∈ st.seenCache
    · left; simp [processDecodedMessage, h1, h2, h3]
    · right
      by_cases ht : byteAt m 1 = 1 <;>
        simp [processDecodedMessage, h1, h2, h3, ht, endOfScanFlush, parseAndMaybeRecord]
  · left; simp [processDecodedMessage, h1, h2]

/-- A decoded message whose key is already in the seen cache leaves the
state untouched and only reaches the forwarding branch. -/
theorem pdm_seen_fst (st : EsnState) (m : List Nat) (src : Nat)
    (h1 : ¬m.length < 1 + 1 + 6 + 4 + 2 + 2 + 2)
    (h2 : le16 m (m.length - 2) = crc16_ccitt (m.take (m.length - 2)))
    (h3 : msgSeenKey m src ∈ st.seenCache) :
    processDecodedMessage st m src = (st, forwardGuard st src) := by
  simp [processDecodedMessage, h1, h2, h3]

/-- Re-delivering the same decoded message to processDecodedMessage leaves
the node state exactly where the first delivery put it: the seen cache
recognizes the key, so neither the bestRssi table nor anything else is
updated a second time. -/
theorem pdm_second_delivery_fixed (st : EsnState) (m : List Nat) (src : Nat) :
    (processDecodedMessage (processDecodedMessage st m src).1 m src).1
      = (processDecodedMessage st m src).1 := by
  by_cases h1 : m.length < 1 + 1 + 6 + 4 + 2 + 2 + 2
  · simp [processDecodedMessage, h1]
  by_cases h2 : le16 m (m.length - 2) = crc16_ccitt (m.take (m.length - 2))
  · by_cases h3 : msgSeenKey m src ∈ st.seenCache
    · simp [processDecodedMessage, h1, h2, h3]
    · have hcache : (processDecodedMessage st m src).1.seenCache
          = seenCachePush st.seenCache (msgSeenKey m src) := by
        by_cases ht : byteAt m 1 = 1 <;>
          simp [processDecodedMessage, h1, h2, h3, ht, endOfScanFlush, parseAndMaybeRecord]
      have hmem : msgSeenKey m src ∈ (processDecodedMessage st m src).1.seenCache := by
        rw [hcache]
        exact mem_seenCachePush_self _ _
      rw [pdm_seen_fst (processDecodedMessage st m src).1 m src h1 h2 hmem]
  · simp [processDecodedMessage, h1, h2]

/-- A reassembled message whose key is already in the seen cache is dropped
with no state change and no forward. -/
theorem esn_seen (st : EsnState) (origin : List Nat) (batch seq src : Nat)
    (msg : List Nat) (h : (⟨origin, batch, seq, src⟩ : SeenKey) ∈ st.seenCache) :
    esnCompleteDeliver st origin batch seq src msg = (st, false) := by
  simp [esnCompleteDeliver, h]

/-- Re-delivering the same reassembled message through the ESP-NOW receive
path is fully suppressed: the state is unchanged and forward_upstream is not
invoked. -/
theorem esn_second_delivery (st : EsnState) (origin : List Nat) (batch seq src : Nat)
    (msg : List Nat) :
    esnCompleteDeliver (esnCompleteDeliver st origin batch seq src msg).1
        origin batch seq src msg
      = ((esnCompleteDeliver st origin batch seq src msg).1, false) := by
  by_cases h : (⟨origin, batch, seq, src⟩ : SeenKey) ∈ st.seenCache
  · simp [esnCompleteDeliver, h]
  · have hmem : (⟨origin, batch, seq, src⟩ : SeenKey)
        ∈ (esnCompleteDeliver st origin batch seq src msg).1.seenCache := by
      have h1 : esnCompleteDeliver st origin batch seq src msg
          = processDecodedMessage
              { st with seenCache := seenCachePush st.seenCache ⟨origin, batch, seq, src⟩ }
              msg src := by
        simp [esnCompleteDeliver, h]
      rw [h1]
      rcases pdm_seenCache_shape
          { st with seenCache := seenCachePush st.seenCache ⟨origin, batch, seq, src⟩ }
          msg src with hs | hs
      · rw [hs]
        exact mem_seenCachePush_self _ _
      · rw [hs]
        exact mem_push_push _ _ _
    exact esn_seen _ origin batch seq src msg hmem

end SeenCacheLemmas

set_option maxRecDepth 20000 in
/-- C5 counterexample: a CRC-valid END message delivered twice over the UART
path with identical content. The non-tail node forwards it upstream on both
deliveries: the second delivery is recognized in the seen cache (the merge
is not re-applied) but the forward action triggered by the message still
fires a second time for the same (origin, batch, seq) tuple. -/
theorem duplicate_delivery_forwards_twice :
    (processDecodedMessage
      ⟨1, false, true, fun _ => none, fun _ => none, fun _ => none, [], []⟩
      [1, 1, 170, 170, 170, 170, 170, 170, 1, 0, 0, 0, 0, 0, 0, 0, 205, 163] 1).2
      = true ∧
    (processDecodedMessage
      (processDecodedMessage
        ⟨1, false, true, fun _ => none, fun _ => none, fun _ => none, [], []⟩
        [1, 1, 170, 170, 170, 170, 170, 170, 1, 0, 0, 0, 0, 0, 0, 0, 205, 163] 1).1
      [1, 1, 170, 170, 170, 170, 170, 170, 1, 0, 0, 0, 0, 0, 0, 0, 205, 163] 1).2
      = true := by
  refine ⟨?_, ?_⟩ <;> decide

/-- C5 as amended: for every fragment tuple delivered twice with identical
content, the merge table is updated at most once — the second delivery is
recognized in the bounded FIFO seen-cache and leaves the whole state
unchanged; the ESP-NOW receive path additionally suppresses the forward on
the duplicate, but processDecodedMessage itself (the wired path) still
forwards a recognized duplicate, so the forward action is not limited to
once per distinct tuple there. -/
theorem duplicate_merge_suppressed (st : EsnState) (m : List Nat) (src : Nat)
    (origin : List Nat) (batch seq : Nat) :
    (processDecodedMessage (processDecodedMessage st m src).1 m src).1
      = (processDecodedMessage st m src).1 ∧
    esnCompleteDeliver (esnCompleteDeliver st origin batch seq src m).1
        origin batch seq src m
      = ((esnCompleteDeliver st origin batch seq src m).1, false) :=
  ⟨pdm_second_delivery_fixed st m src, esn_second_delivery st origin batch seq src m⟩

/-- Witness for C5's amended theorem at a concrete node state and the END
message of the counterexample. -/
theorem duplicate_merge_suppressed_witness :
    (processDecodedMessage
      (processDecodedMessage
        ⟨1, false, true, fun _ => none, fun _ => none, fun _ => none, [], []⟩
        [1, 1, 170, 170, 170, 170, 170, 170, 1, 0, 0, 0, 0, 0, 0, 0, 205, 163] 1).1
      [1, 1, 170, 170, 170, 170, 170, 170, 1, 0, 0, 0, 0, 0, 0, 0, 205, 163] 1).1
      = (processDecodedMessage
        ⟨1, false, true, fun _ => none, fun _ => none, fun _ => none, [], []⟩
        [1, 1, 170, 170, 170, 170, 170, 170, 1, 0, 0, 0, 0, 0, 0, 0, 205, 163] 1).1 ∧
    esnCompleteDeliver
      (esnCompleteDeliver
        ⟨1, false, true, fun _ => none, fun _ => none, fun _ => none, [], []⟩
        [170, 170, 170, 170, 170, 170] 1 0 1
        [1, 1, 170, 170, 170, 170, 170, 170, 1, 0, 0, 0, 0, 0, 0, 0, 205, 163]).1
      [170, 170, 170, 170, 170, 170] 1 0 1
      [1, 1, 170, 170, 170, 170, 170, 170, 1, 0, 0, 0, 0, 0, 0, 0, 205, 163]
      = ((esnCompleteDeliver
        ⟨1, false, true, fun _ => none, fun _ => none, fun _ => none, [], []⟩
        [170, 170, 170, 170, 170, 170] 1 0 1
        [1, 1, 170, 170, 170, 170, 170, 170, 1, 0, 0, 0, 0, 0, 0, 0, 205, 163]).1,
        false) :=
  duplicate_merge_suppressed
    ⟨1, false, true, fun _ => none, fun _ => none, fun _ => none, [], []⟩
    [1, 1, 170, 170, 170, 170, 170, 170, 1, 0, 0, 0, 0, 0, 0, 0, 205, 163] 1
    [170, 170, 170, 170, 170, 170] 1 0

/-- The TLV record loop applies nothing when it breaks anywhere inside the
very first device record: the payload ends before the record's mandatory
part is over (a length check fails because a type or length field announces
more bytes than remain — the fixed part of a record spans offsets 16 to 29,
so any payload end below 30 breaks it), or one of the three mandatory TLV
headers (MAC at 16, RSSI at 24, FLAGS at 27) carries the wrong type or
length byte. These are exactly the break conditions of the first loop
iteration of parseAndMaybeRecord. -/
theorem parseRecords_first_record_malformed (n2d m2d : List Nat → Option Nat)
    (m : List Nat) (ed src : Nat)
    (hmal : ed < 30 ∨ ¬(byteAt m 16 = 1 ∧ byteAt m 17 = 6) ∨
      ¬(byteAt m 24 = 2 ∧ byteAt m 25 = 1) ∨
      ¬(byteAt m 27 = 3 ∧ byteAt m 28 = 1)) :
    ∀ count acc, parseRecords n2d m2d m ed src count 16 acc = acc := by
  intro count acc
  cases count with
  | zero => rfl
  | succ n =>
    rcases hmal with hed | hA | hB | hC
    · simp [parseRecords, hed]
    · simp [parseRecords, hA]
    · simp [parseRecords, hB]
    · simp [parseRecords, hC]

set_option maxRecDepth 40000 in
/-- C8 counterexample: a CRC-valid DATA message whose count field announces
two device records; the first record is complete (a bound MAC at rssi -60)
and the second starts a MAC TLV whose 6-byte length exceeds the remaining
buffer. Decode does not reject the whole message: the first record has
already been applied to the best-signal table when parsing stops at the
malformation. -/
theorem malformed_tlv_partial_application :
    (processDecodedMessage
      ⟨1, true, false, fun _ => none,
        (fun mac => if mac = [17, 34, 51, 68, 85, 102] then some 5 else none),
        fun _ => none, [], []⟩
      [1, 0, 170, 170, 170, 170, 170, 170, 1, 0, 0, 0, 0, 0, 2, 0,
        1, 6, 17, 34, 51, 68, 85, 102, 2, 1, 196, 3, 1, 0, 1, 6, 78, 91] 1).1.bestRssi
      ⟨1, 5⟩ = some (-60) := by
  decide

/-- C8 as amended: a received byte sequence with insufficient length for the
fixed header, or with a failing checksum, is rejected wholesale — the state
is returned untouched and nothing is forwarded; and when the TLV stream is
malformed before any complete device record — a TLV type or length field of
the first record is wrong or announces more bytes than remain in the buffer
— no record at all is applied to the best-signal table. A malformation after
complete records, however, only stops the parse there: the records decoded
before it remain applied. -/
theorem decode_rejects_short_and_bad_crc (st : EsnState) (m m2 : List Nat) (src : Nat)
    (h1 : m.length < 1 + 1 + 6 + 4 + 2 + 2 + 2 ∨
      le16 m (m.length - 2) ≠ crc16_ccitt (m.take (m.length - 2)))
    (h2 : byteAt m2 1 ≠ 1)
    (h3 : m2.length - 2 < 30 ∨ ¬(byteAt m2 16 = 1 ∧ byteAt m2 17 = 6) ∨
      ¬(byteAt m2 24 = 2 ∧ byteAt m2 25 = 1) ∨
      ¬(byteAt m2 27 = 3 ∧ byteAt m2 28 = 1)) :
    processDecodedMessage st m src = (st, false) ∧
    (processDecodedMessage st m2 src).1.bestRssi = st.bestRssi := by
  constructor
  · rcases h1 with h1 | h1
    · simp [processDecodedMessage, h1]
    · by_cases hlen : m.length < 1 + 1 + 6 + 4 + 2 + 2 + 2
      · simp [processDecodedMessage, hlen]
      · simp [processDecodedMessage, hlen, h1]
  · by_cases k1 : m2.length < 1 + 1 + 6 + 4 + 2 + 2 + 2
    · simp [processDecodedMessage, k1]
    by_cases k2 : le16 m2 (m2.length - 2) = crc16_ccitt (m2.take (m2.length - 2))
    · by_cases k3 : msgSeenKey m2 src ∈ st.seenCache
      · simp [processDecodedMessage, k1, k2, k3]
      · simp [processDecodedMessage, k1, k2, k3, h2, parseAndMaybeRecord,
          parseRecords_first_record_malformed st.name2dev st.mac2dev m2
            (m2.length - 2) src h3]
    · simp [processDecodedMessage, k1, k2]

/-- Witness for C8's amended theorem. The first message is three bytes and
is rejected for insufficient length with no state change. The second is a
CRC-valid 20-byte DATA message announcing one device record whose first TLV
is a MAC TLV (type 1, length 6) with zero payload bytes left — a length
field exceeding the remaining buffer — so the parser breaks inside the
first record and the best-signal table is untouched. -/
theorem decode_rejects_short_and_bad_crc_witness :
    processDecodedMessage
        ⟨1, true, false, fun _ => none, fun _ => none, fun _ => none, [], []⟩
        [1, 2, 3] 1
      = (⟨1, true, false, fun _ => none, fun _ => none, fun _ => none, [], []⟩, false) ∧
    (processDecodedMessage
        ⟨1, true, false, fun _ => none, fun _ => none, fun _ => none, [], []⟩
        [1, 0, 170, 170, 170, 170, 170, 170, 1, 0, 0, 0, 0, 0, 1, 0, 1, 6, 109, 117]
        1).1.bestRssi
      = (⟨1, true, false, fun _ => none, fun _ => none, fun _ => none, [], []⟩ :
          EsnState).bestRssi :=
  decode_rejects_short_and_bad_crc
    ⟨1, true, false, fun _ => none, fun _ => none, fun _ => none, [], []⟩
    [1, 2, 3]
    [1, 0, 170, 170, 170, 170, 170, 170, 1, 0, 0, 0, 0, 0, 1, 0, 1, 6, 109, 117]
    1 (Or.inl (by decide)) (by decide) (Or.inl (by decide))

section ReasmLemmas

/-- reasmStep never changes the fragment count of the buffer. -/
theorem reasmStep_total (rb : ReasmBuf) (f : Nat × List Nat) :
    (reasmStep rb f).total = rb.total := by
  unfold reasmStep
  split_ifs <;> rfl

/-- reasmStep keeps the bitmap length equal to the fragment count. -/
theorem reasmStep_haveLen (rb : ReasmBuf) (f : Nat × List Nat)
    (h : rb.haveIdx.length = rb.total) :
    (reasmStep rb f).haveIdx.length = (reasmStep rb f).total := by
  unfold reasmStep
  split_ifs <;> simp [h]

/-- The bitmap after one fragment arrival: slot i is filled afterwards
exactly when it was filled before or the fragment filled it (its index is i
and in range). -/
theorem reasmStep_haveIdx (rb : ReasmBuf) (f : Nat × List Nat) (i : Nat)
    (hlen : rb.haveIdx.length = rb.total) :
    ((reasmStep rb f).haveIdx.getD i false = true ↔
      (rb.haveIdx.getD i false = true ∨ (f.1 = i ∧ f.1 < rb.total))) := by
  unfold reasmStep
  split_ifs with h1 h2
  · constructor
    · exact Or.inl
    · rintro (h | ⟨rfl, hlt⟩)
      · exact h
      · omega
  · by_cases hfi : f.1 = i
    · subst hfi
      constructor
      · exact Or.inl
      · intro _; exact h2
    · constructor
      · exact Or.inl
      · rintro (h | ⟨h, _⟩)
        · exact h
        · exact absurd h hfi
  · have hflt : f.1 < rb.haveIdx.length := by omega
    by_cases hfi : f.1 = i
    · subst hfi
      simp only [List.getD_eq_getElem?_getD]
      rw [List.getElem?_set_self hflt]
      simp [show f.1 < rb.total by omega]
    · simp only [List.getD_eq_getElem?_getD]
      rw [List.getElem?_set_ne hfi]
      constructor
      · exact Or.inl
      · rintro (h | ⟨h, _⟩)
        · exact h
        · exact absurd h hfi

/-- Completeness of a fold of fragment arrivals over any buffer whose bitmap
has the right length: every slot was filled before or is covered by one of
the delivered fragments. -/
theorem runReasm_complete_iff_aux (frags : List (Nat × List Nat)) :
    ∀ rb : ReasmBuf, rb.haveIdx.length = rb.total →
      (reasmComplete (frags.foldl reasmStep rb) = true ↔
        ∀ i < rb.total, rb.haveIdx.getD i false = true ∨ ∃ f ∈ frags, f.1 = i) := by
  induction frags with
  | nil =>
    intro rb hlen
    simp only [List.foldl_nil, reasmComplete, List.all_eq_true]
    constructor
    · intro h i hi
      left
      have hilen : i < rb.haveIdx.length := by omega
      have hmem : rb.haveIdx[i] ∈ rb.haveIdx := List.getElem_mem _
      have hx := h _ hmem
      simp [List.getD_eq_getElem?_getD, List.getElem?_eq_getElem hilen, hx]
    · intro h x hx
      obtain ⟨n, hn, rfl⟩ := List.mem_iff_getElem.mp hx
      rcases h n (by omega) with h1 | ⟨f, hf, _⟩
      · simpa [List.getD_eq_getElem?_getD, List.getElem?_eq_getElem hn] using h1
      · cases hf
  | cons f rest ih =>
    intro rb hlen
    rw [List.foldl_cons, ih (reasmStep rb f) (reasmStep_haveLen rb f hlen),
      reasmStep_total rb f]
    constructor
    · intro h i hi
      rcases h i hi with h1 | h2
      · rcases (reasmStep_haveIdx rb f i hlen).mp h1 with ha | ⟨hb, _⟩
        · exact Or.inl ha
        · exact Or.inr ⟨f, List.mem_cons_self f rest, hb⟩
      · obtain ⟨g, hg, hgi⟩ := h2
        exact Or.inr ⟨g, List.mem_cons_of_mem f hg, hgi⟩
    · intro h i hi
      rcases h i hi with h1 | ⟨g, hg, hgi⟩
      · exact Or.inl ((reasmStep_haveIdx rb f i hlen).mpr (Or.inl h1))
      · rcases List.mem_cons.mp hg with hgf | hg2
        · rw [hgf] at hgi
          exact Or.inl ((reasmStep_haveIdx rb f i hlen).mpr
            (Or.inr ⟨hgi, by rw [hgi]; exact hi⟩))
        · exact Or.inr ⟨g, hg2, hgi⟩

end ReasmLemmas

/-- C6: for a message fragmented in 3 under one (origin, batch, seq) key,
delivering the fragments in arrival order 0, 2, 1 yields exactly the same
reassembled byte sequence as delivering them in order 0, 1, 2 (both complete
and equal to the concatenation of the three payloads); and, for any total
and any arrival order with possible duplicate or out-of-range fragments,
reassembly reports a complete message exactly when every fragment index in
[0, total) has arrived for that key. -/
theorem reassembly_order_insensitive_complete (p0 p1 p2 : List Nat) :
    (reasmComplete (runReasm 3 [(0, p0), (2, p2), (1, p1)]) = true ∧
      reasmAssembled (runReasm 3 [(0, p0), (2, p2), (1, p1)]) = p0 ++ p1 ++ p2 ∧
      reasmAssembled (runReasm 3 [(0, p0), (2, p2), (1, p1)])
        = reasmAssembled (runReasm 3 [(0, p0), (1, p1), (2, p2)])) ∧
    ∀ (total : Nat) (frags : List (Nat × List Nat)),
      reasmComplete (runReasm total frags) = true ↔
        ∀ i < total, ∃ f ∈ frags, f.1 = i := by
  constructor
  · refine ⟨rfl, ?_, rfl⟩
    have h : reasmAssembled (runReasm 3 [(0, p0), (2, p2), (1, p1)])
        = p0 ++ (p1 ++ (p2 ++ [])) := rfl
    rw [h]
    simp
  · intro total frags
    have hinit : (initReasm total).haveIdx.length = (initReasm total).total := by
      simp [initReasm]
    have haux := runReasm_complete_iff_aux frags (initReasm total) hinit
    have hrun : runReasm total frags = frags.foldl reasmStep (initReasm total) := rfl
    rw [hrun, haux]
    constructor
    · intro h i hi
      rcases h i hi with h1 | h2
      · exfalso
        have hz : (initReasm total).haveIdx.getD i false = false := by
          simp [initReasm, List.getD_eq_getElem?_getD, List.getElem?_replicate, hi]
        rw [hz] at h1
        cases h1
      · exact h2
    · intro h i hi
      exact Or.inr (h i hi)

/-- Witness for C6 at concrete payloads [1], [2, 3] and [4]. -/
theorem reassembly_order_insensitive_complete_witness :
    (reasmComplete (runReasm 3 [(0, [1]), (2, [4]), (1, [2, 3])]) = true ∧
      reasmAssembled (runReasm 3 [(0, [1]), (2, [4]), (1, [2, 3])])
        = [1] ++ [2, 3] ++ [4] ∧
      reasmAssembled (runReasm 3 [(0, [1]), (2, [4]), (1, [2, 3])])
        = reasmAssembled (runReasm 3 [(0, [1]), (1, [2, 3]), (2, [4])])) ∧
    ∀ (total : Nat) (frags : List (Nat × List Nat)),
      reasmComplete (runReasm total frags) = true ↔
        ∀ i < total, ∃ f ∈ frags, f.1 = i :=
  reassembly_order_insensitive_complete [1] [2, 3] [4]

section CrcLemmas

/-- One crc shift step always produces a 16-bit value. -/
theorem crcShift1_lt (c : Nat) : crcShift1 c < 65536 := by
  unfold crcShift1
  split_ifs <;> exact Nat.mod_lt _ (by norm_num)

/-- At least one shift step bounds the state by 2^16. -/
theorem crcShift1_iter_lt (n : Nat) (c : Nat) : crcShift1^[n + 1] c < 65536 := by
  rw [Function.iterate_succ_apply']
  exact crcShift1_lt _

/-- A byte step always produces a 16-bit value. -/
theorem crcByteStep_lt (c b : Nat) : crcByteStep c b < 65536 := by
  unfold crcByteStep
  exact crcShift1_iter_lt 7 _

/-- Reduction modulo a power of two commutes with xor. -/
theorem xor_mod_two_pow (a b n : Nat) :
    (a ^^^ b) % 2 ^ n = a % 2 ^ n ^^^ b % 2 ^ n := by
  apply Nat.eq_of_testBit_eq
  intro i
  simp only [Nat.testBit_mod_two_pow, Nat.testBit_xor]
  by_cases h : i < n <;> simp [h]

/-- Cancelling a common xor operand on the right. -/
theorem xor_right_cancel_nat {a b x : Nat} (h : a ^^^ x = b ^^^ x) : a = b := by
  have h2 := congrArg (fun y => y ^^^ x) h
  simpa [Nat.xor_assoc] using h2

/-- Cancelling a common xor operand on the left. -/
theorem xor_left_cancel_nat {a b x : Nat} (h : x ^^^ a = x ^^^ b) : a = b := by
  have h2 := congrArg (fun y => x ^^^ y) h
  simpa [← Nat.xor_assoc] using h2

/-- Bit 15 of a 16-bit value tested by the mask 0x8000, as arithmetic. -/
theorem and_bit15 (c : Nat) (hc : c < 65536) : c &&& 32768 ≠ 0 ↔ 32768 ≤ c := by
  have htb : c.testBit 15 = decide (c / 32768 % 2 = 1) := by
    rw [Nat.testBit_to_div_mod]
  constructor
  · intro h
    by_contra hle
    push_neg at hle
    apply h
    apply Nat.eq_of_testBit_eq
    intro i
    rw [show (32768 : Nat) = 2 ^ 15 by norm_num, Nat.testBit_and, Nat.testBit_two_pow]
    by_cases hi : 15 = i
    · subst hi
      have hfalse : c.testBit 15 = false := by
        rw [htb]
        simp only [decide_eq_false_iff_not]
        omega
      simp [hfalse]
    · simp [hi]
  · intro h h0
    have hb : (c &&& 32768).testBit 15 = false := by
      rw [h0]
      exact Nat.zero_testBit _
    rw [show (32768 : Nat) = 2 ^ 15 by norm_num, Nat.testBit_and,
      Nat.testBit_two_pow] at hb
    simp only [decide_True, Bool.and_true] at hb
    rw [htb] at hb
    simp only [decide_eq_false_iff_not] at hb
    omega

/-- crcShift1 is injective on 16-bit values: it is multiplication by x
modulo the CRC polynomial, an invertible linear map. -/
theorem crcShift1_inj (c1 c2 : Nat) (h1 : c1 < 65536) (h2 : c2 < 65536)
    (he : crcShift1 c1 = crcShift1 c2) : c1 = c2 := by
  have e2 : ∀ c : Nat, c <<< 1 = c * 2 := by
    intro c
    rw [Nat.shiftLeft_eq]
  have hmm : ∀ x : Nat, x % 65536 % 2 = x % 2 := fun x =>
    Nat.mod_mod_of_dvd x (by norm_num)
  have hxm : ∀ x : Nat, (x ^^^ 4129) % 65536 = x % 65536 ^^^ 4129 := by
    intro x
    have := xor_mod_two_pow x 4129 16
    norm_num at this
    exact this
  have hodd : ∀ c : Nat, ((c <<< 1) ^^^ 4129) % 65536 % 2 = 1 := by
    intro c
    rw [hmm, show (2 : Nat) = 2 ^ 1 by norm_num, xor_mod_two_pow]
    norm_num [e2, Nat.mul_mod_left]
  have heven : ∀ c : Nat, (c <<< 1) % 65536 % 2 = 0 := by
    intro c
    rw [hmm, e2]
    omega
  unfold crcShift1 at he
  by_cases b1 : c1 &&& 0x8000 ≠ 0 <;> by_cases b2 : c2 &&& 0x8000 ≠ 0
  · rw [if_pos b1, if_pos b2, hxm, hxm] at he
    have hc := xor_right_cancel_nat he
    have hb1 := (and_bit15 c1 h1).mp b1
    have hb2 := (and_bit15 c2 h2).mp b2
    rw [e2, e2] at hc
    omega
  · rw [if_pos b1, if_neg b2] at he
    have h3 := congrArg (fun x => x % 2) he
    simp only at h3
    rw [hodd, heven] at h3
    cases h3
  · rw [if_neg b1, if_pos b2] at he
    have h3 := congrArg (fun x => x % 2) he
    simp only at h3
    rw [hodd, heven] at h3
    cases h3
  · rw [if_neg b1, if_neg b2] at he
    have hb1 : ¬32768 ≤ c1 := fun hle => b1 ((and_bit15 c1 h1).mpr hle)
    have hb2 : ¬32768 ≤ c2 := fun hle => b2 ((and_bit15 c2 h2).mpr hle)
    rw [e2, e2] at he
    omega

/-- Iterated crc shift steps are injective on 16-bit values. -/
theorem crcShift1_iter_inj (n : Nat) : ∀ c1 c2 : Nat, c1 < 65536 → c2 < 65536 →
    c1 ≠ c2 → crcShift1^[n] c1 ≠ crcShift1^[n] c2 := by
  induction n with
  | zero =>
    intro c1 c2 _ _ hne
    simpa using hne
  | succ k ih =>
    intro c1 c2 h1 h2 hne
    rw [Function.iterate_succ_apply, Function.iterate_succ_apply]
    exact ih _ _ (crcShift1_lt c1) (crcShift1_lt c2)
      (fun he => hne (crcShift1_inj c1 c2 h1 h2 he))

/-- A byte step separates distinct 16-bit crc states. -/
theorem crcByteStep_inj_left (c1 c2 b : Nat) (h1 : c1 < 65536) (h2 : c2 < 65536)
    (hb : b < 256) (hne : c1 ≠ c2) : crcByteStep c1 b ≠ crcByteStep c2 b := by
  unfold crcByteStep
  have hs : b <<< 8 < 65536 := by
    rw [Nat.shiftLeft_eq]
    omega
  have hx1 : c1 ^^^ b <<< 8 < 65536 := by
    rw [show (65536 : Nat) = 2 ^ 16 by norm_num] at h1 hs ⊢
    exact Nat.xor_lt_two_pow h1 hs
  have hx2 : c2 ^^^ b <<< 8 < 65536 := by
    rw [show (65536 : Nat) = 2 ^ 16 by norm_num] at h2 hs ⊢
    exact Nat.xor_lt_two_pow h2 hs
  rw [Nat.mod_eq_of_lt hx1, Nat.mod_eq_of_lt hx2]
  exact crcShift1_iter_inj 8 _ _ hx1 hx2
    (fun he => hne (xor_right_cancel_nat he))

/-- A byte step separates distinct bytes fed into the same crc state. -/
theorem crcByteStep_inj_byte (c b1 b2 : Nat) (hc : c < 65536) (hb1 : b1 < 256)
    (hb2 : b2 < 256) (hne : b1 ≠ b2) : crcByteStep c b1 ≠ crcByteStep c b2 := by
  unfold crcByteStep
  have hs1 : b1 <<< 8 < 65536 := by
    rw [Nat.shiftLeft_eq]
    omega
  have hs2 : b2 <<< 8 < 65536 := by
    rw [Nat.shiftLeft_eq]
    omega
  have hx1 : c ^^^ b1 <<< 8 < 65536 := by
    rw [show (65536 : Nat) = 2 ^ 16 by norm_num] at hc hs1 ⊢
    exact Nat.xor_lt_two_pow hc hs1
  have hx2 : c ^^^ b2 <<< 8 < 65536 := by
    rw [show (65536 : Nat) = 2 ^ 16 by norm_num] at hc hs2 ⊢
    exact Nat.xor_lt_two_pow hc hs2
  rw [Nat.mod_eq_of_lt hx1, Nat.mod_eq_of_lt hx2]
  refine crcShift1_iter_inj 8 _ _ hx1 hx2 (fun he => hne ?_)
  have hsh := xor_left_cancel_nat he
  rw [Nat.shiftLeft_eq, Nat.shiftLeft_eq] at hsh
  omega

/-- Folding the remaining bytes keeps distinct crc states distinct. -/
theorem crcFold_inj (l : List Nat) : ∀ c1 c2 : Nat, (∀ x ∈ l, x < 256) →
    c1 < 65536 → c2 < 65536 → c1 ≠ c2 →
    l.foldl crcByteStep c1 ≠ l.foldl crcByteStep c2 := by
  induction l with
  | nil =>
    intro c1 c2 _ _ _ hne
    simpa using hne
  | cons x rest ih =>
    intro c1 c2 hb h1 h2 hne
    rw [List.foldl_cons, List.foldl_cons]
    exact ih _ _ (fun y hy => hb y (List.mem_cons_of_mem x hy)) (crcByteStep_lt c1 x)
      (crcByteStep_lt c2 x)
      (crcByteStep_inj_left c1 c2 x h1 h2 (hb x (List.mem_cons_self x rest)) hne)

/-- Flipping one bit of one byte changes the crc of the byte list. -/
theorem crcFold_flip_ne (j : Nat) (hj : j < 8) :
    ∀ (t : List Nat) (i c : Nat), (∀ x ∈ t, x < 256) → c < 65536 → i < t.length →
      (t.set i (t.getD i 0 ^^^ 1 <<< j)).foldl crcByteStep c ≠ t.foldl crcByteStep c := by
  intro t
  induction t with
  | nil =>
    intro i c _ _ hi
    simp at hi
  | cons x rest ih =>
    intro i c hb hc hi
    have hx : x < 256 := hb x (List.mem_cons_self x rest)
    have hrest : ∀ y ∈ rest, y < 256 := fun y hy => hb y (List.mem_cons_of_mem x hy)
    cases i with
    | zero =>
      simp only [List.set_cons_zero, List.getD_cons_zero, List.foldl_cons]
      have hflip : x ^^^ 1 <<< j ≠ x := by
        intro hfx
        have h0 := xor_left_cancel_nat (a := 1 <<< j) (b := 0) (x := x)
          (by simpa using hfx)
        rw [Nat.shiftLeft_eq] at h0
        have := Nat.pos_pow_of_pos j (show 0 < 2 by norm_num)
        omega
      have hflt : x ^^^ 1 <<< j < 256 := by
        have hs : 1 <<< j < 256 := by
          rw [Nat.shiftLeft_eq]
          have : (2 : Nat) ^ j ≤ 2 ^ 7 :=
            Nat.pow_le_pow_right (by norm_num) (by omega)
          omega
        rw [show (256 : Nat) = 2 ^ 8 by norm_num] at hx hs ⊢
        exact Nat.xor_lt_two_pow hx hs
      exact crcFold_inj rest _ _ hrest (crcByteStep_lt c _) (crcByteStep_lt c x)
        (crcByteStep_inj_byte c _ x hc hflt hx hflip)
    | succ k =>
      simp only [List.set_cons_succ, List.getD_cons_succ, List.foldl_cons]
      exact ih k (crcByteStep c x) hrest (crcByteStep_lt c x) (by simpa using hi)

end CrcLemmas

/-- C7: for every well-formed encoded message (long enough for the fixed
header and carrying a valid crc16_ccitt trailer) and every single-bit flip
applied anywhere in the checksummed bytes — the payload included — the
decoder's CRC-16 verification fails, and processDecodedMessage drops the
corrupted message leaving the whole state, the best-signal table included,
exactly as it was, with no forward. -/
theorem crc_single_bit_flip_rejected (st : EsnState) (m : List Nat) (src i j : Nat)
    (hbytes : ∀ x ∈ m, x < 256)
    (hlen : 1 + 1 + 6 + 4 + 2 + 2 + 2 ≤ m.length)
    (hcrc : le16 m (m.length - 2) = crc16_ccitt (m.take (m.length - 2)))
    (hi : i < m.length - 2) (hj : j < 8) :
    le16 (flipBit m i j) ((flipBit m i j).length - 2)
      ≠ crc16_ccitt ((flipBit m i j).take ((flipBit m i j).length - 2)) ∧
    processDecodedMessage st (flipBit m i j) src = (st, false) := by
  have hlen' : (flipBit m i j).length = m.length := by
    simp [flipBit]
  have hstored : le16 (flipBit m i j) (m.length - 2) = le16 m (m.length - 2) := by
    unfold le16 byteAt flipBit
    rw [List.getD_eq_getElem?_getD, List.getD_eq_getElem?_getD,
      List.getD_eq_getElem?_getD, List.getD_eq_getElem?_getD,
      List.getElem?_set_ne (by omega : i ≠ m.length - 2),
      List.getElem?_set_ne (by omega : i ≠ m.length - 2 + 1)]
  have htake : (flipBit m i j).take (m.length - 2)
      = (m.take (m.length - 2)).set i ((m.take (m.length - 2)).getD i 0 ^^^ 1 <<< j) := by
    unfold flipBit
    rw [List.set_take]
    have hgd : byteAt m i = (m.take (m.length - 2)).getD i 0 := by
      unfold byteAt
      rw [List.getD_eq_getElem?_getD, List.getD_eq_getElem?_getD,
        List.getElem?_take_of_lt hi]
    rw [hgd]
  have htb : ∀ x ∈ m.take (m.length - 2), x < 256 :=
    fun x hx => hbytes x (List.mem_of_mem_take hx)
  have hitl : i < (m.take (m.length - 2)).length := by
    rw [List.length_take]
    omega
  have hne : crc16_ccitt ((flipBit m i j).take (m.length - 2))
      ≠ crc16_ccitt (m.take (m.length - 2)) := by
    rw [htake]
    exact crcFold_flip_ne j hj (m.take (m.length - 2)) i 0xFFFF htb (by norm_num) hitl
  have hmain : le16 (flipBit m i j) ((flipBit m i j).length - 2)
      ≠ crc16_ccitt ((flipBit m i j).take ((flipBit m i j).length - 2)) := by
    rw [hlen', hstored, hcrc]
    exact fun he => hne he.symm
  refine ⟨hmain, ?_⟩
  have hnotshort : ¬(flipBit m i j).length < 1 + 1 + 6 + 4 + 2 + 2 + 2 := by
    rw [hlen']
    omega
  simp [processDecodedMessage, hnotshort, hmain]

set_option maxRecDepth 40000 in
/-- Witness for C7: the all-zero 16-byte message with its checksum, bit 5 of
byte 3 flipped. -/
theorem crc_single_bit_flip_rejected_witness :
    le16 (flipBit zeroMsg 3 5) ((flipBit zeroMsg 3 5).length - 2)
      ≠ crc16_ccitt ((flipBit zeroMsg 3 5).take ((flipBit zeroMsg 3 5).length - 2)) ∧
    processDecodedMessage
        ⟨0, false, false, fun _ => none, fun _ => none, fun _ => none, [], []⟩
        (flipBit zeroMsg 3 5) 0
      = (⟨0, false, false, fun _ => none, fun _ => none, fun _ => none, [], []⟩, false) :=
  crc_single_bit_flip_rejected
    ⟨0, false, false, fun _ => none, fun _ => none, fun _ => none, [], []⟩
    zeroMsg 0 3 5 (by decide) (by decide) (by decide) (by decide) (by decide)

end SmokeChain
